import Mathlib

/-!
Shallow embedding of the scikit-fem finite-element assembly core
(`src/skfem/mesh/mesh.py`, `src/skfem/assembly/form/bilinear_form.py`,
`src/skfem/io/meshio.py`) together with proofs about the embedded code.

Conventions used throughout:

* numpy integer arrays of shape `(rows, cols)` are represented by lists;
  for the element connectivity `t` (numpy shape `(nnodes, nelements)`),
  we store the list of *columns* (one list of node indices per element),
  since every operation of the code is element-column based.  Sub-entity
  maps such as `t2f` (numpy shape `(ntemplates, nelements)`) are stored
  as lists of *rows*, matching the `reshape`/`flatten('C')` row-major
  operations applied to them by the code.
* `float64` coordinate arrays are embedded with an arbitrary commutative
  ring of scalars (instantiated with `ℤ` or `ℚ` in concrete statements);
  all coordinate computations appearing in the verified claims are exact.
* fallible code returns `Except String`, with the Python exception class
  name at the start of the message.
-/

/-- Maximum of a list of naturals; `numpy.max` over index arrays, with the
convention that the maximum of the empty list is `0`. -/
def maxOf (l : List ℕ) : ℕ := l.foldr max 0

/-- Index of the first occurrence of `v` in `l`; equals `l.length` when `v`
does not occur.  This is the value delivered by `numpy.unique(e,
return_index=True)` for each distinct value of `e`. -/
def firstIdx [DecidableEq α] : List α → α → ℕ
  | [], _ => 0
  | a :: l, v => if a = v then 0 else firstIdx l v + 1

/-- Insert a natural number into a sorted list (ascending). -/
def insNat (a : ℕ) : List ℕ → List ℕ
  | [] => [a]
  | b :: l => if a ≤ b then a :: b :: l else b :: insNat a l

/-- Insertion sort on lists of naturals; `numpy.sort` applied to one column
of an index array. -/
def sortNat (l : List ℕ) : List ℕ := l.foldr insNat []

/-- Insert into a list kept sorted by the boolean relation `le`. -/
def insOrd (le : α → α → Bool) (a : α) : List α → List α
  | [] => [a]
  | b :: l => if le a b then a :: b :: l else b :: insOrd le a l

/-- Insert while discarding duplicates. -/
def insDedup [DecidableEq α] (le : α → α → Bool) (a : α) (l : List α) :
    List α :=
  if a ∈ l then l else insOrd le a l

/-- Sorted deduplication: for a linear boolean order `le` this produces the
sorted list of distinct values of `l`, i.e. the output of `numpy.unique`. -/
def sortDedup [DecidableEq α] (le : α → α → Bool) (l : List α) : List α :=
  l.foldr (insDedup le) []

/-- Lexicographic comparison of two lists over a linear order; the order in
which `numpy.unique(..., axis=1)` sorts the distinct columns of an array. -/
def lexLe [LinearOrder α] : List α → List α → Bool
  | [], _ => true
  | _ :: _, [] => false
  | a :: l, b :: m => if a < b then true else if b < a then false else lexLe l m

/-- The array `tix = np.tile(np.arange(nt), (1, nnodes))[0]` from
`Mesh.build_inverse`: `nnodes` concatenated copies of `0, ..., nt - 1`. -/
def tix (nnodes nt : ℕ) : List ℕ :=
  (List.range nnodes).flatMap (fun _ => List.range nt)

/-- Columns of `indexing = np.hstack(tuple([t[ix] for ix in indices]))` from
`Mesh.build_entities`: for every local sub-entity template and every element
(template-major, element-minor order), the tuple of global node indices of
that sub-entity occurrence. -/
def rawCols (t indices : List (List ℕ)) : List (List ℕ) :=
  indices.flatMap (fun tmpl => t.map (fun el => tmpl.map (fun li => el.getD li 0)))

/-- Columns of `sorted_indexing = np.sort(indexing, axis=0)` from
`Mesh.build_entities`: each sub-entity occurrence canonicalized by sorting
its node-index tuple. -/
def entCols (t indices : List (List ℕ)) : List (List ℕ) :=
  (rawCols t indices).map sortNat

/-- The distinct canonicalized columns of `entCols`, in lexicographic order;
the first component of `np.unique(sorted_indexing, axis=1)`. -/
def entUniq (t indices : List (List ℕ)) : List (List ℕ) :=
  sortDedup lexLe (entCols t indices)

/-- The `ixb` (inverse index) output of `np.unique`: for every occurrence
column, its index among the distinct columns. -/
def entIxb (t indices : List (List ℕ)) : List ℕ :=
  (entCols t indices).map (firstIdx (entUniq t indices))

/-- Embedding of `Mesh.build_entities(t, indices, sort)`
(`src/skfem/mesh/mesh.py`): canonicalize every sub-entity occurrence by
sorting its node-index tuple, deduplicate globally via `numpy.unique`
(distinct columns in lexicographic order, `ixb` the index of each original
column among the distinct ones), and reshape `ixb` into the
`(len(indices), nt)` element-to-entity map. -/
def build_entities (t indices : List (List ℕ)) (sort : Bool) :
    List (List ℕ) × List (List ℕ) :=
  let nt := t.length
  let mapping := (List.range indices.length).map
    (fun l => (List.range nt).map
      (fun c => (entIxb t indices).getD (l * nt + c) 0))
  (if sort then entUniq t indices
   else (entUniq t indices).map
     (fun u => (rawCols t indices).getD (firstIdx (entCols t indices) u) []),
   mapping)

/-- Embedding of `Mesh.build_inverse(t, mapping)` (`src/skfem/mesh/mesh.py`).
With `e = mapping.flatten(order='C')` the code scatters, for every distinct
value `v` of `e`, the element index (`tix`) of the first occurrence of `v`
into row 0 and of the last occurrence (found through the reversed array)
into row 1, over an array of `np.max(mapping) + 1` zero-initialized slots;
finally every slot where the two rows agree gets the sentinel `-1` in
row 1. -/
def build_inverse (t mapping : List (List ℕ)) : List ℤ × List ℤ :=
  let nt := t.length
  let nnodes := (t.headD []).length
  let e := mapping.flatten
  let tixl := tix nnodes nt
  let sz := maxOf e + 1
  let row0 := (List.range sz).map
    (fun v => if v ∈ e then ((tixl.getD (firstIdx e v) 0 : ℕ) : ℤ) else 0)
  let row1p := (List.range sz).map
    (fun v => if v ∈ e then
      ((tixl.getD (e.length - firstIdx e.reverse v - 1) 0 : ℕ) : ℤ) else 0)
  (row0, List.zipWith (fun a b => if a = b then (-1 : ℤ) else b) row0 row1p)

/-- Embedding of `Mesh.boundary_facets()` (`src/skfem/mesh/mesh.py`):
`np.nonzero(self.f2t[1] == -1)[0]`, the ascending list of facet indices
whose second owning-element slot is the sentinel. -/
def boundary_facets (f2t : List ℤ × List ℤ) : List ℕ :=
  (List.range f2t.2.length).filter (fun f => f2t.2.getD f 0 = -1)

/-- Number of distinct elements owning a given entity `v`: element `c` owns
`v` when some flattened occurrence `i` of `v` lies in column `c`, i.e.
`i % nt = c` for the row-major flattening of an `(L, nt)` map. -/
def ownersCount (nt : ℕ) (e : List ℕ) (v : ℕ) : ℕ :=
  ((List.range nt).filter
    (fun c => (List.range e.length).any
      (fun i => e.getD i 0 == v && i % nt == c))).length

/-- Each entity value occurs at most once inside any single element column:
two flattened occurrences of the same value in the same element column are
equal.  This holds for every mesh whose elements list each sub-entity once
(in particular for all non-degenerate meshes). -/
def OccElemsInjective (nt : ℕ) (e : List ℕ) : Prop :=
  ∀ i, i < e.length → ∀ j, j < e.length →
    e.getD i 0 = e.getD j 0 → i % nt = j % nt → i = j

/-- A connectivity/template pair is manifold when every sub-entity occurs at
most once per element and is shared by at most two elements. -/
def ManifoldPair (t indices : List (List ℕ)) : Prop :=
  OccElemsInjective t.length (build_entities t indices true).2.flatten ∧
    ∀ v, v < maxOf (build_entities t indices true).2.flatten + 1 →
      ownersCount t.length (build_entities t indices true).2.flatten v ≤ 2

/-- Last occurrence index of `v` in `l`, computed the way `Mesh.build_inverse`
does: first occurrence in the reversed list, flipped
(`ix_last = e.shape[0] - ix_last - 1`). -/
def lastIdx [DecidableEq α] (l : List α) (v : α) : ℕ :=
  l.length - firstIdx l.reverse v - 1

theorem firstIdx_lt [DecidableEq α] {v : α} : ∀ {l : List α}, v ∈ l →
    firstIdx l v < l.length
  | a :: l, h => by
    by_cases hav : a = v
    · simp [firstIdx, hav]
    · rcases List.mem_cons.1 h with h' | h'
      · exact absurd h'.symm hav
      · simpa [firstIdx, hav] using firstIdx_lt h'

theorem getD_firstIdx [DecidableEq α] {v : α} : ∀ {l : List α}, v ∈ l →
    ∀ d : α, l.getD (firstIdx l v) d = v
  | a :: l, h, d => by
    by_cases hav : a = v
    · simp [firstIdx, hav]
    · rcases List.mem_cons.1 h with h' | h'
      · exact absurd h'.symm hav
      · simpa [firstIdx, hav] using getD_firstIdx h' d

theorem firstIdx_le [DecidableEq α] {l : List α} {v : α} {i : ℕ} (d : α)
    (hi : i < l.length) (h : l.getD i d = v) : firstIdx l v ≤ i := by
  induction l generalizing i with
  | nil => simp at hi
  | cons a l ih =>
    by_cases hav : a = v
    · simp [firstIdx, hav]
    · cases i with
      | zero => simp [List.getD] at h; exact absurd h hav
      | succ i =>
        simp only [List.getD_cons_succ] at h
        simpa [firstIdx, hav] using ih (Nat.lt_of_succ_lt_succ hi) h

theorem getD_reverse {l : List α} {i : ℕ} (d : α) (h : i < l.length) :
    l.reverse.getD i d = l.getD (l.length - 1 - i) d := by
  have h' : i < l.reverse.length := by simpa using h
  have h'' : l.length - 1 - i < l.length := by omega
  rw [List.getD_eq_getElem _ _ h', List.getD_eq_getElem _ _ h'',
    List.getElem_reverse]

theorem lastIdx_lt [DecidableEq α] {l : List α} {v : α} (h : v ∈ l) :
    lastIdx l v < l.length := by
  have h0 : 0 < l.length := List.length_pos.2 (List.ne_nil_of_mem h)
  have : firstIdx l.reverse v < l.length := by
    simpa using firstIdx_lt (List.mem_reverse.2 h)
  unfold lastIdx
  omega

theorem getD_lastIdx [DecidableEq α] {l : List α} {v : α} (h : v ∈ l)
    (d : α) : l.getD (lastIdx l v) d = v := by
  have hr : v ∈ l.reverse := List.mem_reverse.2 h
  have hfr : firstIdx l.reverse v < l.length := by simpa using firstIdx_lt hr
  have := getD_firstIdx hr d
  rw [getD_reverse d (by simpa using hfr)] at this
  have heq : l.length - 1 - firstIdx l.reverse v = lastIdx l v := by
    unfold lastIdx; omega
  rwa [heq] at this

theorem le_lastIdx [DecidableEq α] {l : List α} {v : α} {i : ℕ} (d : α)
    (hi : i < l.length) (h : l.getD i d = v) : i ≤ lastIdx l v := by
  have hj : l.length - 1 - i < l.length := by omega
  have hrev : l.reverse.getD (l.length - 1 - i) d = v := by
    rw [getD_reverse d (by omega)]
    have : l.length - 1 - (l.length - 1 - i) = i := by omega
    rwa [this]
  have := @firstIdx_le α _ l.reverse v (l.length - 1 - i) d
    (by simpa using hj) hrev
  unfold lastIdx
  omega

theorem le_maxOf {v : ℕ} : ∀ {l : List ℕ}, v ∈ l → v ≤ maxOf l
  | a :: l, h => by
    rcases List.mem_cons.1 h with h' | h'
    · simp only [maxOf, List.foldr, h']
      omega
    · have := le_maxOf h'
      simp only [maxOf, List.foldr] at this ⊢
      omega

theorem getD_mem {l : List α} {i : ℕ} (d : α) (h : i < l.length) :
    l.getD i d ∈ l := by
  rw [List.getD_eq_getElem _ _ h]
  exact List.getElem_mem h

theorem mem_insOrd {le : α → α → Bool} {a x : α} {l : List α} :
    x ∈ insOrd le a l ↔ x = a ∨ x ∈ l := by
  induction l with
  | nil => simp [insOrd]
  | cons b l ih =>
    by_cases hle : le a b
    · simp [insOrd, hle]
    · simp only [insOrd, hle, Bool.false_eq_true, if_false, List.mem_cons, ih]
      tauto

theorem nodup_insOrd {le : α → α → Bool} {a : α} {l : List α}
    (ha : a ∉ l) (h : l.Nodup) : (insOrd le a l).Nodup := by
  induction l with
  | nil => simp [insOrd]
  | cons b l ih =>
    rcases List.nodup_cons.1 h with ⟨hb, hl⟩
    by_cases hle : le a b
    · simp only [insOrd, hle, if_true]
      refine List.nodup_cons.2 ⟨?_, h⟩
      simp only [List.mem_cons, not_or]
      exact ⟨fun hab => ha (hab ▸ List.mem_cons_self b l), fun hal => ha (List.mem_cons_of_mem b hal)⟩
    · simp only [insOrd, hle, Bool.false_eq_true, if_false]
      refine List.nodup_cons.2 ⟨?_, ih (fun hal => ha (List.mem_cons_of_mem b hal)) hl⟩
      rw [mem_insOrd]
      rintro (rfl | hbl)
      · exact ha (List.mem_cons_self b l)
      · exact hb hbl

theorem mem_sortDedup [DecidableEq α] {le : α → α → Bool} {x : α}
    {l : List α} : x ∈ sortDedup le l ↔ x ∈ l := by
  induction l with
  | nil => simp [sortDedup]
  | cons a l ih =>
    show x ∈ insDedup le a (sortDedup le l) ↔ _
    unfold insDedup
    by_cases ha : a ∈ sortDedup le l
    · simp only [ha, if_true, List.mem_cons, ih]
      constructor
      · exact Or.inr
      · rintro (rfl | hx)
        · exact ih.1 ha
        · exact hx
    · simp only [ha, if_false, mem_insOrd, List.mem_cons, ih]

theorem nodup_sortDedup [DecidableEq α] {le : α → α → Bool} {l : List α} :
    (sortDedup le l).Nodup := by
  induction l with
  | nil => simp [sortDedup]
  | cons a l ih =>
    show (insDedup le a (sortDedup le l)).Nodup
    unfold insDedup
    by_cases ha : a ∈ sortDedup le l
    · simpa [ha] using ih
    · simpa [ha] using nodup_insOrd ha ih

theorem getD_map_range {f : ℕ → α} {n i : ℕ} (d : α) (h : i < n) :
    ((List.range n).map f).getD i d = f i := by
  have hi : i < ((List.range n).map f).length := by simpa using h
  rw [List.getD_eq_getElem _ _ hi]
  simp

theorem getD_map {f : α → β} {l : List α} {i : ℕ} (d : β) (d' : α)
    (h : i < l.length) : (l.map f).getD i d = f (l.getD i d') := by
  have hi : i < (l.map f).length := by simpa using h
  rw [List.getD_eq_getElem _ _ hi, List.getD_eq_getElem _ _ h]
  simp

theorem length_flatMap_const {f : α → List β} {L : List α} {n : ℕ}
    (h : ∀ b ∈ L, (f b).length = n) : (L.flatMap f).length = L.length * n := by
  induction L with
  | nil => simp
  | cons a L ih =>
    simp only [List.flatMap_cons, List.length_append,
      h a (List.mem_cons_self a L),
      ih (fun b hb => h b (List.mem_cons_of_mem a hb)), List.length_cons]
    ring

theorem getD_flatMap_chunk {f : α → List β} {L : List α} {n l c : ℕ}
    (d : β) (d' : α) (hn : ∀ b ∈ L, (f b).length = n)
    (hl : l < L.length) (hc : c < n) :
    (L.flatMap f).getD (l * n + c) d = (f (L.getD l d')).getD c d := by
  induction L generalizing l with
  | nil => simp at hl
  | cons a L ih =>
    cases l with
    | zero =>
      have ha : (f a).length = n := hn a (List.mem_cons_self a L)
      simp only [List.flatMap_cons, Nat.zero_mul, Nat.zero_add, List.getD_cons_zero]
      rw [List.getD_append _ _ _ _ (by omega)]
    | succ l =>
      have ha : (f a).length = n := hn a (List.mem_cons_self a L)
      have harith : (l + 1) * n + c = (f a).length + (l * n + c) := by
        rw [ha]; ring
      simp only [List.flatMap_cons, List.getD_cons_succ]
      rw [harith, List.getD_append_right _ _ _ _ (by omega)]
      have : (f a).length + (l * n + c) - (f a).length = l * n + c := by omega
      rw [this]
      exact ih (fun b hb => hn b (List.mem_cons_of_mem a hb))
        (Nat.lt_of_succ_lt_succ hl)

theorem getD_range {n i : ℕ} (d : ℕ) (h : i < n) :
    (List.range n).getD i d = i := by
  have hi : i < (List.range n).length := by simpa using h
  rw [List.getD_eq_getElem _ _ hi]
  simp

theorem tix_getD {nnodes nt i : ℕ} (hnt : 0 < nt) (h : i < nnodes * nt) :
    (tix nnodes nt).getD i 0 = i % nt := by
  have hq : i / nt < nnodes := (Nat.div_lt_iff_lt_mul hnt).2 h
  have hr : i % nt < nt := Nat.mod_lt _ hnt
  have hi : i / nt * nt + i % nt = i := by
    conv_rhs => rw [← Nat.div_add_mod i nt]
    ring
  have key := @getD_flatMap_chunk ℕ ℕ (fun _ => List.range nt)
    (List.range nnodes) nt (i / nt) (i % nt) 0 0
    (fun b _ => List.length_range nt) (by simpa using hq) hr
  rw [hi] at key
  unfold tix
  rw [key, getD_range 0 hr]

theorem map_range_getD_take {g : List ℕ} {n : ℕ} (h : n ≤ g.length) :
    (List.range n).map (fun c => g.getD c 0) = g.take n := by
  apply List.ext_getElem
  · simp [Nat.min_eq_left h]
  · intro i h1 h2
    have hi : i < n := by simpa using h1
    simp only [List.getElem_map, List.getElem_range, List.getElem_take]
    rw [List.getD_eq_getElem _ _ (by omega)]

theorem getD_drop {g : List α} {n i : ℕ} (d : α) (h : n + i < g.length) :
    (g.drop n).getD i d = g.getD (n + i) d := by
  rw [List.getD_eq_getElem _ _ (by simp; omega), List.getD_eq_getElem _ _ h]
  simp

theorem flatten_reshape {L nt : ℕ} : ∀ {g : List ℕ}, g.length = L * nt →
    ((List.range L).map
      (fun l => (List.range nt).map (fun c => g.getD (l * nt + c) 0))).flatten
      = g := by
  induction L with
  | zero =>
    intro g hg
    simp only [Nat.zero_mul] at hg
    simp [List.length_eq_zero.1 hg]
  | succ L ih =>
    intro g hg
    have hsucc : (L + 1) * nt = L * nt + nt := by ring
    rw [List.range_succ_eq_map]
    simp only [List.map_cons, List.map_map, List.flatten_cons]
    have h1 : (List.range nt).map (fun c => g.getD (0 * nt + c) 0) = g.take nt := by
      simp only [Nat.zero_mul, Nat.zero_add]
      exact map_range_getD_take (by omega)
    have h2 : ((List.range L).map
        ((fun l => (List.range nt).map (fun c => g.getD (l * nt + c) 0)) ∘ Nat.succ)).flatten
        = g.drop nt := by
      have hdl : (g.drop nt).length = L * nt := by
        simp only [List.length_drop, hg]
        omega
      have hih := ih hdl
      rw [← hih]
      congr 1
      apply List.map_congr_left
      intro l hl
      have hlL : l < L := by simpa using hl
      simp only [Function.comp]
      apply List.map_congr_left
      intro c hc
      have hcn : c < nt := by simpa using hc
      have hidx : nt + (l * nt + c) < g.length := by
        rw [hg]
        have hstep : (l + 2) * nt ≤ (L + 1) * nt :=
          Nat.mul_le_mul_right nt (by omega)
        calc nt + (l * nt + c) < nt + (l * nt + nt) := by omega
          _ = (l + 2) * nt := by ring
          _ ≤ (L + 1) * nt := hstep
      rw [getD_drop _ hidx]
      have hsucci : Nat.succ l * nt + c = nt + (l * nt + c) := by
        simp only [Nat.succ_eq_add_one]
        ring
      rw [hsucci]
    rw [h1, h2, List.take_append_drop]

theorem flatten_length_of_rect {m : List (List ℕ)} {nt : ℕ}
    (h : ∀ r ∈ m, r.length = nt) : m.flatten.length = m.length * nt := by
  induction m with
  | nil => simp
  | cons r m ih =>
    simp only [List.flatten_cons, List.length_append, List.length_cons,
      h r (List.mem_cons_self r m),
      ih (fun x hx => h x (List.mem_cons_of_mem r hx))]
    ring

theorem zipWith_map_same (g : α → α → β) (f1 f2 : γ → α) :
    ∀ r : List γ, List.zipWith g (r.map f1) (r.map f2)
      = r.map (fun x => g (f1 x) (f2 x))
  | [] => rfl
  | x :: r => by
    simp only [List.map_cons, List.zipWith_cons_cons]
    rw [zipWith_map_same g f1 f2 r]

theorem owns_iff {nt : ℕ} {e : List ℕ} {v c : ℕ} :
    ((List.range e.length).any
      (fun i => e.getD i 0 == v && i % nt == c) = true) ↔
      ∃ i, i < e.length ∧ e.getD i 0 = v ∧ i % nt = c := by
  simp only [List.any_eq_true, List.mem_range, Bool.and_eq_true, beq_iff_eq]

theorem filter_range_eq_single {n c0 : ℕ} (p : ℕ → Bool) (hc0 : c0 < n)
    (hp : ∀ c, c < n → (p c = true ↔ c = c0)) :
    (List.range n).filter p = [c0] := by
  induction n with
  | zero => omega
  | succ n ih =>
    rw [List.range_succ, List.filter_append]
    by_cases hc : c0 = n
    · have hnil : (List.range n).filter p = [] := by
        rw [List.filter_eq_nil_iff]
        intro a ha
        have han : a < n := by simpa using ha
        intro hpa
        have := (hp a (by omega)).1 hpa
        omega
      have hpn : p n = true := (hp n (by omega)).2 hc.symm
      simp [hnil, hpn, hc]
    · have hlt : c0 < n := by omega
      have hpn : p n = false := by
        by_cases hb : p n = true
        · exact absurd ((hp n (by omega)).1 hb) (by omega)
        · simpa using hb
      rw [ih hlt (fun c hcn => hp c (by omega))]
      simp [hpn]

theorem ownersCount_eq_one_iff {nt : ℕ} {e : List ℕ} {v : ℕ}
    (hnt : 0 < nt) (hv : v ∈ e) (hinj : OccElemsInjective nt e) :
    ownersCount nt e v = 1 ↔ firstIdx e v % nt = lastIdx e v % nt := by
  constructor
  · intro hone
    obtain ⟨a, ha⟩ := List.length_eq_one.1 hone
    have hmemf : firstIdx e v % nt ∈
        (List.range nt).filter (fun c => (List.range e.length).any
          (fun i => e.getD i 0 == v && i % nt == c)) := by
      rw [List.mem_filter]
      refine ⟨List.mem_range.2 (Nat.mod_lt _ hnt), ?_⟩
      exact owns_iff.2 ⟨firstIdx e v, firstIdx_lt hv, getD_firstIdx hv 0, rfl⟩
    have hmeml : lastIdx e v % nt ∈
        (List.range nt).filter (fun c => (List.range e.length).any
          (fun i => e.getD i 0 == v && i % nt == c)) := by
      rw [List.mem_filter]
      refine ⟨List.mem_range.2 (Nat.mod_lt _ hnt), ?_⟩
      exact owns_iff.2 ⟨lastIdx e v, lastIdx_lt hv, getD_lastIdx hv 0, rfl⟩
    rw [ownersCount] at hone
    rw [ha] at hmemf hmeml
    simp only [List.mem_singleton] at hmemf hmeml
    rw [hmemf, hmeml]
  · intro heq
    have hfl : firstIdx e v = lastIdx e v :=
      hinj _ (firstIdx_lt hv) _ (lastIdx_lt hv)
        (by rw [getD_firstIdx hv 0, getD_lastIdx hv 0]) heq
    have huniq : ∀ i, i < e.length → e.getD i 0 = v → i = firstIdx e v := by
      intro i hi hiv
      have h1 := firstIdx_le 0 hi hiv
      have h2 := le_lastIdx 0 hi hiv
      omega
    have hfilter : (List.range nt).filter
        (fun c => (List.range e.length).any
          (fun i => e.getD i 0 == v && i % nt == c)) = [firstIdx e v % nt] := by
      apply filter_range_eq_single _ (Nat.mod_lt (firstIdx e v) hnt)
      intro c hc
      rw [owns_iff]
      constructor
      · rintro ⟨i, hi, hiv, hic⟩
        rw [← hic, huniq i hi hiv]
      · intro hcf
        exact ⟨firstIdx e v, firstIdx_lt hv, getD_firstIdx hv 0, hcf.symm⟩
    rw [ownersCount, hfilter]
    rfl

theorem build_inverse_fst_getD {t mapping : List (List ℕ)} {v : ℕ}
    (hnt : 0 < t.length)
    (hlen : mapping.flatten.length ≤ (t.headD []).length * t.length)
    (hv : v ∈ mapping.flatten) :
    (build_inverse t mapping).1.getD v 0
      = ((firstIdx mapping.flatten v % t.length : ℕ) : ℤ) := by
  have hsz : v < maxOf mapping.flatten + 1 := by
    have := le_maxOf hv
    omega
  show ((List.range (maxOf mapping.flatten + 1)).map _).getD v 0 = _
  rw [getD_map_range _ hsz]
  simp only [hv, if_true]
  congr 1
  exact tix_getD hnt (lt_of_lt_of_le (firstIdx_lt hv) hlen)

theorem build_inverse_snd_getD {t mapping : List (List ℕ)} {v : ℕ}
    (hnt : 0 < t.length)
    (hlen : mapping.flatten.length ≤ (t.headD []).length * t.length)
    (hv : v ∈ mapping.flatten) :
    (build_inverse t mapping).2.getD v 0
      = (if firstIdx mapping.flatten v % t.length
            = lastIdx mapping.flatten v % t.length then (-1 : ℤ)
         else ((lastIdx mapping.flatten v % t.length : ℕ) : ℤ)) := by
  have hsz : v < maxOf mapping.flatten + 1 := by
    have := le_maxOf hv
    omega
  have hfi : firstIdx mapping.flatten v < mapping.flatten.length :=
    firstIdx_lt hv
  have hli : lastIdx mapping.flatten v < mapping.flatten.length :=
    lastIdx_lt hv
  show (List.zipWith _ ((List.range _).map _) ((List.range _).map _)).getD v 0 = _
  rw [zipWith_map_same]
  rw [getD_map_range _ hsz]
  simp only [hv, if_true]
  rw [tix_getD hnt (lt_of_lt_of_le hfi hlen)]
  have hlast : mapping.flatten.length - firstIdx mapping.flatten.reverse v - 1
      = lastIdx mapping.flatten v := rfl
  rw [hlast, tix_getD hnt (lt_of_lt_of_le hli hlen)]
  by_cases heq : firstIdx mapping.flatten v % t.length
      = lastIdx mapping.flatten v % t.length
  · have hz : ((firstIdx mapping.flatten v % t.length : ℕ) : ℤ)
        = ((lastIdx mapping.flatten v % t.length : ℕ) : ℤ) := by
      exact_mod_cast heq
    rw [if_pos hz, if_pos heq]
  · have hz : ¬ ((firstIdx mapping.flatten v % t.length : ℕ) : ℤ)
        = ((lastIdx mapping.flatten v % t.length : ℕ) : ℤ) := by
      intro hc
      exact heq (by exact_mod_cast hc)
    rw [if_neg hz, if_neg heq]

theorem firstIdx_getD_of_nodup [DecidableEq α] (d : α) :
    ∀ {l : List α}, l.Nodup → ∀ {i : ℕ}, i < l.length →
      firstIdx l (l.getD i d) = i
  | a :: l, h, i, hi => by
    rcases List.nodup_cons.1 h with ⟨ha, hl⟩
    cases i with
    | zero => simp [firstIdx]
    | succ i =>
      have hil : i < l.length := Nat.lt_of_succ_lt_succ hi
      have hmem : l.getD i d ∈ l := getD_mem d hil
      have hne : a ≠ l.getD i d := fun hcontra => ha (hcontra ▸ hmem)
      simp only [List.getD_cons_succ, firstIdx, hne, if_false]
      rw [firstIdx_getD_of_nodup d hl hil]

/-- The global node-index tuple of the sub-entity occurrence given by
template `l` and element `c`: the raw (unsorted) sub-entity tuple. -/
def subTuple (t indices : List (List ℕ)) (l c : ℕ) : List ℕ :=
  (indices.getD l []).map (fun li => (t.getD c []).getD li 0)

theorem length_rawCols {t indices : List (List ℕ)} :
    (rawCols t indices).length = indices.length * t.length :=
  length_flatMap_const (fun tmpl _ => by simp)

theorem length_entCols {t indices : List (List ℕ)} :
    (entCols t indices).length = indices.length * t.length := by
  simp [entCols, length_rawCols]

theorem length_entIxb {t indices : List (List ℕ)} :
    (entIxb t indices).length = indices.length * t.length := by
  simp [entIxb, length_entCols]

theorem rawCols_getD {t indices : List (List ℕ)} {l c : ℕ}
    (hl : l < indices.length) (hc : c < t.length) :
    (rawCols t indices).getD (l * t.length + c) [] = subTuple t indices l c := by
  rw [rawCols, getD_flatMap_chunk [] [] (fun tmpl _ => by simp) hl hc]
  rw [getD_map [] [] hc]
  rfl

theorem entCols_getD {t indices : List (List ℕ)} {l c : ℕ}
    (hl : l < indices.length) (hc : c < t.length) :
    (entCols t indices).getD (l * t.length + c) []
      = sortNat (subTuple t indices l c) := by
  have hidx : l * t.length + c < (rawCols t indices).length := by
    rw [length_rawCols]
    calc l * t.length + c < l * t.length + t.length := by omega
      _ = (l + 1) * t.length := by ring
      _ ≤ indices.length * t.length := Nat.mul_le_mul_right _ (by omega)
  rw [entCols, getD_map [] [] hidx, rawCols_getD hl hc]

theorem entIxb_getD {t indices : List (List ℕ)} {i : ℕ}
    (h : i < indices.length * t.length) :
    (entIxb t indices).getD i 0
      = firstIdx (entUniq t indices) ((entCols t indices).getD i []) := by
  rw [entIxb, getD_map 0 [] (by rw [length_entCols]; exact h)]

theorem build_entities_flatten {t indices : List (List ℕ)} {s : Bool} :
    (build_entities t indices s).2.flatten = entIxb t indices := by
  show ((List.range indices.length).map _).flatten = _
  exact flatten_reshape length_entIxb

theorem build_entities_map_getD {t indices : List (List ℕ)} {s : Bool}
    {l c : ℕ} (hl : l < indices.length) (hc : c < t.length) :
    ((build_entities t indices s).2.getD l []).getD c 0
      = firstIdx (entUniq t indices) (sortNat (subTuple t indices l c)) := by
  show (((List.range indices.length).map _).getD l []).getD c 0 = _
  rw [getD_map_range [] hl, getD_map_range 0 hc]
  rw [entIxb_getD (by
    calc l * t.length + c < l * t.length + t.length := by omega
      _ = (l + 1) * t.length := by ring
      _ ≤ indices.length * t.length := Nat.mul_le_mul_right _ (by omega)),
    entCols_getD hl hc]

theorem mem_entIxb_of_lt {t indices : List (List ℕ)} {f : ℕ}
    (hf : f < (entUniq t indices).length) : f ∈ entIxb t indices := by
  have hu : (entUniq t indices).getD f [] ∈ entUniq t indices :=
    getD_mem [] hf
  have hcols : (entUniq t indices).getD f [] ∈ entCols t indices := by
    have := mem_sortDedup.1 (by rw [entUniq] at hu; exact hu)
    exact this
  obtain ⟨p, hp, hpe⟩ := List.getElem_of_mem hcols
  have hpd : (entCols t indices).getD p [] = (entUniq t indices).getD f [] := by
    rw [List.getD_eq_getElem _ _ hp, hpe]
  have hkey : (entIxb t indices).getD p 0 = f := by
    rw [entIxb, getD_map 0 [] hp, hpd]
    exact firstIdx_getD_of_nodup [] nodup_sortDedup hf
  have hplen : p < (entIxb t indices).length := by
    rw [length_entIxb, ← length_entCols]
    exact hp
  rw [← hkey]
  exact getD_mem 0 hplen

theorem length_build_inverse_snd {t mapping : List (List ℕ)} :
    (build_inverse t mapping).2.length = maxOf mapping.flatten + 1 := by
  show (List.zipWith _ _ _).length = _
  simp [List.length_zipWith]

/-- Claim C1.  For every manifold connectivity/template pair and every valid
facet index `f`, the second row of the facet-to-element map produced by
`build_inverse` (the value of `f2t[1][f]`) equals the sentinel `-1` exactly
when `f` is listed by `boundary_facets()`, and exactly when facet `f` is
owned by exactly one element. -/
theorem boundary_sentinel_iff_single_owner (t indices : List (List ℕ))
    (f : ℕ) (hman : ManifoldPair t indices)
    (hrows : indices.length ≤ (t.headD []).length)
    (hnt : 0 < t.length)
    (hf : f < (build_entities t indices true).1.length) :
    ((build_inverse t (build_entities t indices true).2).2.getD f 0 = -1
      ↔ f ∈ boundary_facets
          (build_inverse t (build_entities t indices true).2)) ∧
    ((build_inverse t (build_entities t indices true).2).2.getD f 0 = -1
      ↔ ownersCount t.length
          (build_entities t indices true).2.flatten f = 1) := by
  have hfst : (build_entities t indices true).1 = entUniq t indices := rfl
  have hflat : (build_entities t indices true).2.flatten = entIxb t indices :=
    build_entities_flatten
  have hmem : f ∈ (build_entities t indices true).2.flatten := by
    rw [hflat]
    exact mem_entIxb_of_lt (by rw [← hfst]; exact hf)
  have hlen : (build_entities t indices true).2.flatten.length
      ≤ (t.headD []).length * t.length := by
    rw [hflat, length_entIxb]
    exact Nat.mul_le_mul_right _ hrows
  have hsnd := build_inverse_snd_getD hnt hlen hmem
  have howners := ownersCount_eq_one_iff hnt hmem hman.1
  have hiff2 : (build_inverse t (build_entities t indices true).2).2.getD f 0
      = -1 ↔ ownersCount t.length
        (build_entities t indices true).2.flatten f = 1 := by
    rw [hsnd]
    by_cases heq : firstIdx (build_entities t indices true).2.flatten f
        % t.length = lastIdx (build_entities t indices true).2.flatten f
        % t.length
    · simp only [heq, if_true]
      exact ⟨fun _ => howners.2 heq, fun _ => trivial⟩
    · simp only [heq, if_false]
      constructor
      · intro hc
        have : (0 : ℤ) ≤ ((lastIdx (build_entities t indices true).2.flatten f
            % t.length : ℕ) : ℤ) := Int.ofNat_nonneg _
        omega
      · intro hc
        exact absurd (howners.1 hc) heq
  refine ⟨?_, hiff2⟩
  have hsz : f < maxOf (build_entities t indices true).2.flatten + 1 := by
    have := le_maxOf hmem
    omega
  constructor
  · intro hv
    rw [boundary_facets, List.mem_filter, List.mem_range,
      length_build_inverse_snd]
    exact ⟨hsz, by simpa using hv⟩
  · intro hv
    rw [boundary_facets, List.mem_filter] at hv
    simpa using hv.2

theorem boundary_sentinel_iff_single_owner_witness :
    ManifoldPair [[0, 1, 2]] [[0, 1], [1, 2], [0, 2]] ∧
    ((build_inverse [[0, 1, 2]]
        (build_entities [[0, 1, 2]] [[0, 1], [1, 2], [0, 2]] true).2).2.getD 0 0
        = -1
      ↔ ownersCount 1
          (build_entities [[0, 1, 2]] [[0, 1], [1, 2], [0, 2]] true).2.flatten
          0 = 1) :=
  ⟨by unfold ManifoldPair OccElemsInjective
      decide,
   (boundary_sentinel_iff_single_owner [[0, 1, 2]] [[0, 1], [1, 2], [0, 2]] 0
      (by unfold ManifoldPair OccElemsInjective
          decide)
      (by decide) (by decide) (by decide)).2⟩

/-- Claim C4 (amended).  For every connectivity array and rectangular
element-to-entity map (one row per template, one column per element, at most
as many rows as nodes per element) in which no entity occurs more than once
within the same element, `build_inverse` returns two rows such that, for
every entity `v` occurring in the map: row 0 holds the element of the first
occurrence of `v` in scan order; row 1 holds the sentinel `-1` exactly when
`v` is owned by exactly one element, and otherwise the element of the last
occurrence of `v` in scan order. -/
theorem build_inverse_first_last_spec (t mapping : List (List ℕ)) (v : ℕ)
    (hrect : ∀ r ∈ mapping, r.length = t.length)
    (hrows : mapping.length ≤ (t.headD []).length)
    (hnt : 0 < t.length)
    (hinj : OccElemsInjective t.length mapping.flatten)
    (hv : v ∈ mapping.flatten) :
    (∃ i, i < mapping.flatten.length ∧ mapping.flatten.getD i 0 = v ∧
      (build_inverse t mapping).1.getD v 0 = ((i % t.length : ℕ) : ℤ) ∧
      ∀ j, j < i → mapping.flatten.getD j 0 ≠ v) ∧
    ((build_inverse t mapping).2.getD v 0 = -1 ↔
      ownersCount t.length mapping.flatten v = 1) ∧
    (ownersCount t.length mapping.flatten v ≠ 1 →
      ∃ i, i < mapping.flatten.length ∧ mapping.flatten.getD i 0 = v ∧
        (build_inverse t mapping).2.getD v 0 = ((i % t.length : ℕ) : ℤ) ∧
        ∀ j, i < j → j < mapping.flatten.length →
          mapping.flatten.getD j 0 ≠ v) := by
  have hlen : mapping.flatten.length ≤ (t.headD []).length * t.length := by
    rw [flatten_length_of_rect hrect]
    exact Nat.mul_le_mul_right _ hrows
  have hfst := build_inverse_fst_getD hnt hlen hv
  have hsnd := build_inverse_snd_getD hnt hlen hv
  have howners := ownersCount_eq_one_iff hnt hv hinj
  refine ⟨?_, ?_, ?_⟩
  · refine ⟨firstIdx mapping.flatten v, firstIdx_lt hv,
      getD_firstIdx hv 0, hfst, ?_⟩
    intro j hj hcontra
    have hjlen : j < mapping.flatten.length :=
      lt_trans hj (firstIdx_lt hv)
    have := firstIdx_le 0 hjlen hcontra
    omega
  · rw [hsnd]
    by_cases heq : firstIdx mapping.flatten v % t.length
        = lastIdx mapping.flatten v % t.length
    · simp only [heq, if_true]
      exact ⟨fun _ => howners.2 heq, fun _ => trivial⟩
    · simp only [heq, if_false]
      constructor
      · intro hc
        have : (0 : ℤ) ≤ ((lastIdx mapping.flatten v % t.length : ℕ) : ℤ) :=
          Int.ofNat_nonneg _
        omega
      · intro hc
        exact absurd (howners.1 hc) heq
  · intro hne
    have heq : firstIdx mapping.flatten v % t.length
        ≠ lastIdx mapping.flatten v % t.length :=
      fun hc => hne (howners.2 hc)
    refine ⟨lastIdx mapping.flatten v, lastIdx_lt hv, getD_lastIdx hv 0,
      ?_, ?_⟩
    · rw [hsnd, if_neg heq]
    · intro j hj hjlen hcontra
      have := le_lastIdx 0 hjlen hcontra
      omega

/-- Claim C4, counterexample to the claim as frozen.  The claim quantifies
over every connectivity array and element-to-entity map.  For the map
`[[0, 1], [1, 0], [0, 1]]` over two elements, entity `0` occurs (in scan
order) in elements `0`, `1`, `0`: it is owned by the two distinct elements
`0` and `1`, so the claim requires the second row to hold the last owning
element in scan order, namely element `0`; but because the first and the
last occurrence lie in the same element, the code writes the sentinel `-1`
instead. -/
theorem build_inverse_claim_counterexample :
    (build_inverse [[0, 1, 2], [3, 4, 5]]
        [[0, 1], [1, 0], [0, 1]]).2.getD 0 0 = -1 ∧
    ownersCount 2 ([[0, 1], [1, 0], [0, 1]] : List (List ℕ)).flatten 0 = 2 ∧
    lastIdx ([[0, 1], [1, 0], [0, 1]] : List (List ℕ)).flatten 0 % 2 = 0 := by
  decide

theorem build_inverse_first_last_spec_witness :
    OccElemsInjective 2 ([[0, 1], [1, 0]] : List (List ℕ)).flatten ∧
    ((build_inverse [[0, 1, 2], [3, 4, 5]] [[0, 1], [1, 0]]).2.getD 0 0 = -1
      ↔ ownersCount 2 ([[0, 1], [1, 0]] : List (List ℕ)).flatten 0 = 1) :=
  ⟨by unfold OccElemsInjective
      decide,
   (build_inverse_first_last_spec [[0, 1, 2], [3, 4, 5]] [[0, 1], [1, 0]] 0
      (by decide) (by decide) (by decide)
      (by unfold OccElemsInjective
          decide)
      (by decide)).2.1⟩

theorem insNat_eq_orderedInsert (a : ℕ) :
    ∀ l : List ℕ, insNat a l = List.orderedInsert (· ≤ ·) a l
  | [] => rfl
  | b :: l => by
    unfold insNat List.orderedInsert
    rw [insNat_eq_orderedInsert a l]

theorem sortNat_eq_insertionSort :
    ∀ l : List ℕ, sortNat l = List.insertionSort (· ≤ ·) l
  | [] => rfl
  | a :: l => by
    show insNat a (sortNat l) = List.orderedInsert (· ≤ ·) a _
    rw [sortNat_eq_insertionSort l, insNat_eq_orderedInsert]

theorem sortNat_perm (l : List ℕ) : List.Perm (sortNat l) l := by
  rw [sortNat_eq_insertionSort]
  exact List.perm_insertionSort _ l

theorem sortNat_sorted (l : List ℕ) : (sortNat l).Sorted (· ≤ ·) := by
  rw [sortNat_eq_insertionSort]
  exact List.sorted_insertionSort _ l

/-- Claim C3.  `build_entities` returns (shape) an element-to-entity map
with one row per local sub-entity template and one column per element,
together with a deduplicated entity array such that: (a) the entity
recorded for every (template, element) occurrence is exactly the occurrence
node tuple canonicalized by sorting (an ascending permutation of the raw
tuple); (b) two occurrences are mapped to the same unique-entity index
exactly when their sorted node tuples coincide. -/
theorem build_entities_canonical_global_dedup (t indices : List (List ℕ)) :
    ((build_entities t indices true).2.length = indices.length ∧
      ∀ r ∈ (build_entities t indices true).2, r.length = t.length) ∧
    (∀ l c, l < indices.length → c < t.length →
      (build_entities t indices true).1.getD
          (((build_entities t indices true).2.getD l []).getD c 0) []
        = sortNat (subTuple t indices l c) ∧
      List.Perm (sortNat (subTuple t indices l c)) (subTuple t indices l c) ∧
      (sortNat (subTuple t indices l c)).Sorted (· ≤ ·)) ∧
    (∀ l c l' c', l < indices.length → c < t.length →
      l' < indices.length → c' < t.length →
      (((build_entities t indices true).2.getD l []).getD c 0
          = ((build_entities t indices true).2.getD l' []).getD c' 0
        ↔ sortNat (subTuple t indices l c)
          = sortNat (subTuple t indices l' c'))) := by
  have hcols : ∀ l c, l < indices.length → c < t.length →
      sortNat (subTuple t indices l c) ∈ entUniq t indices := by
    intro l c hl hc
    rw [entUniq, mem_sortDedup, ← entCols_getD hl hc]
    apply getD_mem
    rw [length_entCols]
    calc l * t.length + c < l * t.length + t.length := by omega
      _ = (l + 1) * t.length := by ring
      _ ≤ indices.length * t.length := Nat.mul_le_mul_right _ (by omega)
  refine ⟨⟨by simp [build_entities], ?_⟩, ?_, ?_⟩
  · intro r hr
    show r.length = t.length
    have : r ∈ (List.range indices.length).map
        (fun l => (List.range t.length).map
          (fun c => (entIxb t indices).getD (l * t.length + c) 0)) := hr
    obtain ⟨l, _, rfl⟩ := List.mem_map.1 this
    simp
  · intro l c hl hc
    refine ⟨?_, sortNat_perm _, sortNat_sorted _⟩
    rw [build_entities_map_getD hl hc]
    show (entUniq t indices).getD _ [] = _
    exact getD_firstIdx (hcols l c hl hc) []
  · intro l c l' c' hl hc hl' hc'
    rw [build_entities_map_getD hl hc, build_entities_map_getD hl' hc']
    constructor
    · intro h
      have h1 := getD_firstIdx (hcols l c hl hc) ([] : List ℕ)
      have h2 := getD_firstIdx (hcols l' c' hl' hc') ([] : List ℕ)
      rw [← h1, ← h2, h]
    · intro h
      rw [h]

theorem build_entities_canonical_global_dedup_witness :
    (0 : ℕ) < 1 ∧
    (build_entities [[0, 2, 1]] [[0, 1], [1, 2], [0, 2]] true).1.getD
        (((build_entities [[0, 2, 1]] [[0, 1], [1, 2], [0, 2]] true).2.getD
          1 []).getD 0 0) []
      = sortNat (subTuple [[0, 2, 1]] [[0, 1], [1, 2], [0, 2]] 1 0) :=
  ⟨by decide,
   ((build_entities_canonical_global_dedup [[0, 2, 1]]
      [[0, 1], [1, 2], [0, 2]]).2.1 1 0 (by decide) (by decide)).1⟩

/-- Python mesh classes appearing in the embedded sources.  `tri2`
subclasses `tri1` (`src/skfem/mesh/mesh_tri_2.py`); the remaining concrete
classes are unrelated to each other. -/
inductive MeshCls
  | tri1
  | tri2
  | quad1
  | quad2
  | tet1
  | tet2
  | hex1
  | line1
  deriving DecidableEq

/-- Embedding of Python `isinstance(other, type(self))` for the mesh
classes: an instance of a subclass is an instance of its base class. -/
def MeshCls.isInstanceOf : MeshCls → MeshCls → Bool
  | .tri2, .tri1 => true
  | a, b => a == b

/-- The `sort_t` dataclass flag of each class.  `MeshTri2` sets it to
`False` (`src/skfem/mesh/mesh_tri_2.py`).  For `MeshTri1` the value `True`
is modelled from the spec (the comment in `mesh.py` notes that element
indices are sorted in a triangle mesh); the other classes keep the base
default `False`. -/
def MeshCls.sortT : MeshCls → Bool
  | .tri1 => true
  | _ => false

/-- Embedding of the `Mesh` dataclass (`src/skfem/mesh/mesh.py`):
coordinates (`doflocs`, stored as the list of its columns, i.e. one
coordinate tuple per node), element connectivity (`t`, stored as the list
of its columns, i.e. one node-index tuple per element), the optional named
boundary/subdomain sets, and the Python class of the instance.  The scalar
type of the `float64` coordinates is an arbitrary commutative ring so that
the exact computations of the claims embed faithfully. -/
structure MeshE (α : Type) where
  doflocs : List (List α)
  t : List (List ℕ)
  boundaries : Option (List (String × List ℕ))
  subdomains : Option (List (String × List ℕ))
  cls : MeshCls

instance {α : Type} : Inhabited (MeshE α) :=
  ⟨⟨[], [], none, none, MeshCls.tri1⟩⟩

/-- Embedding of the constructor `cls(p, t, boundaries, subdomains)`
together with the one `__post_init__` step the claims can observe: when
`sort_t` is set, the node indices inside every element column are sorted
ascending (`self.t = np.sort(self.t, axis=0)`).  The dtype and contiguity
conversions and the high-order-node reordering of `__post_init__` are not
modelled (no embedded claim involves them). -/
def mkMesh {α : Type} (cls : MeshCls) (p : List (List α)) (t : List (List ℕ))
    (b s : Option (List (String × List ℕ))) : MeshE α :=
  ⟨p, if cls.sortT then t.map sortNat else t, b, s, cls⟩

/-- Dot product, as `np.dot` on equal-length vectors. -/
def dotL {α : Type} [CommRing α] (a b : List α) : α :=
  (List.zipWith (· * ·) a b).sum

/-- Embedding of `Mesh.scaled(factors)` (`src/skfem/mesh/mesh.py`):
`replace(self, doflocs=np.array([self.doflocs[itr] * factors[itr] for itr
in range(len(factors))]))` — coordinate row `itr` is scaled by
`factors[itr]`, rows beyond `len(factors)` are dropped, everything else is
copied into the new instance. -/
def MeshE.scaled {α : Type} [CommRing α] (m : MeshE α) (factors : List α) :
    MeshE α :=
  { m with doflocs := (m.doflocs.map
      (fun pt => (List.range factors.length).map
        (fun i => pt.getD i 0 * factors.getD i 0))) }

/-- Embedding of `Mesh.translated(diffs)` (`src/skfem/mesh/mesh.py`):
coordinate row `itr` is shifted by `diffs[itr]`. -/
def MeshE.translated {α : Type} [CommRing α] (m : MeshE α) (diffs : List α) :
    MeshE α :=
  { m with doflocs := (m.doflocs.map
      (fun pt => (List.range diffs.length).map
        (fun i => pt.getD i 0 + diffs.getD i 0))) }

/-- Embedding of `Mesh.mirrored(normal, point)` (`src/skfem/mesh/mesh.py`):
`p - 2 * np.dot(n, p - p0) * n` applied to every node.  The source divides
`normal` by its Euclidean norm (a floating-point square root); the
embedding takes the normalized vector as input, which is exact for the unit
axis normals appearing in the claims. -/
def MeshE.mirrored {α : Type} [CommRing α] (m : MeshE α)
    (normal point : List α) : MeshE α :=
  { m with doflocs := (m.doflocs.map
      (fun x =>
        (List.range x.length).map
          (fun i => x.getD i 0
            - 2 * dotL normal (List.zipWith (· - ·) x point)
              * normal.getD i 0))) }

/-- Embedding of `Mesh.__add__` (`src/skfem/mesh/mesh.py`).  The code
raises `TypeError` unless `isinstance(other, type(self))`; then
`np.hstack` of the coordinate arrays raises `ValueError` unless both have
the same number of coordinate rows; then the concatenated coordinate
columns are deduplicated by `np.unique` (distinct columns in lexicographic
order, `ixb` relabelling), the offset connectivity is relabelled through
`ixb`, and a new instance `cls(p, t)` of the type of the left operand is
constructed (named sets are dropped). -/
def MeshE.add {α : Type} [CommRing α] [LinearOrder α] (m1 m2 : MeshE α) :
    Except String (MeshE α) :=
  if ¬ (m2.cls.isInstanceOf m1.cls = true) then
    Except.error "TypeError: Can only join meshes with same type."
  else if (m1.doflocs.headD []).length ≠ (m2.doflocs.headD []).length then
    Except.error "ValueError: array dimensions other than the concatenation axis must match."
  else
    let p := m1.doflocs ++ m2.doflocs
    let t := m1.t ++ m2.t.map (fun el => el.map (fun v => v + m1.doflocs.length))
    let uniq := sortDedup lexLe p
    let newt := t.map (fun el => el.map (fun v => firstIdx uniq (p.getD v [])))
    Except.ok (mkMesh m1.cls uniq newt none none)

/-- Heap model of Python object identity for mesh instances: a mesh object
is a slot in a list, and constructing a new instance (`replace(self, ...)`
or `cls(p, t)`) appends a fresh slot.  A transformation method reads the
receiver slot, builds the new mesh value, and returns the fresh index. -/
def heapCall {α : Type} (h : List (MeshE α)) (f : MeshE α → MeshE α)
    (r : ℕ) : List (MeshE α) × ℕ :=
  (h ++ [f (h.getD r default)], h.length)

/-- Heap version of `Mesh.scaled`. -/
def scaledOp {α : Type} [CommRing α] (h : List (MeshE α)) (r : ℕ)
    (factors : List α) : List (MeshE α) × ℕ :=
  heapCall h (fun m => m.scaled factors) r

/-- Heap version of `Mesh.translated`. -/
def translatedOp {α : Type} [CommRing α] (h : List (MeshE α)) (r : ℕ)
    (diffs : List α) : List (MeshE α) × ℕ :=
  heapCall h (fun m => m.translated diffs) r

/-- Heap version of `Mesh.mirrored`. -/
def mirroredOp {α : Type} [CommRing α] (h : List (MeshE α)) (r : ℕ)
    (normal point : List α) : List (MeshE α) × ℕ :=
  heapCall h (fun m => m.mirrored normal point) r

/-- Heap version of `Mesh.refined(times)` for an integer argument: the
source iterates `m = m._uniform()`.  `Mesh._uniform` raises
`NotImplementedError` in the base class and the subclass implementations
are not among the embedded sources, so the single-refinement step is a
parameter; only the final instance is recorded in the heap. -/
def refinedOp {α : Type} (h : List (MeshE α)) (r : ℕ)
    (uniform : MeshE α → MeshE α) (times : ℕ) : List (MeshE α) × ℕ :=
  heapCall h (fun m => uniform^[times] m) r

/-- Heap version of `Mesh.__add__`: on success the freshly constructed
instance is appended; a raised `TypeError`/`ValueError` propagates and no
instance is created. -/
def addOp {α : Type} [CommRing α] [LinearOrder α] (h : List (MeshE α))
    (r1 r2 : ℕ) : List (MeshE α) × Option ℕ :=
  match MeshE.add (h.getD r1 default) (h.getD r2 default) with
  | Except.ok m => (h ++ [m], some h.length)
  | Except.error _ => (h, none)

theorem getD_append_fresh {α : Type} {h : List α} {x : α} {r : ℕ} (d : α)
    (hr : r < h.length) : (h ++ [x]).getD r d = h.getD r d :=
  List.getD_append _ _ _ _ hr

/-- Claim C7.  Every transformation method (`scaled`, `translated`,
`mirrored`, `refined`, and join via `+`) returns a fresh mesh instance
(a heap slot distinct from the receiver) and leaves the receiver slot — in
particular its `doflocs`, `t` and named boundary/subdomain sets — exactly
as it was before the call. -/
theorem mesh_transforms_fresh_receiver_unchanged {α : Type} [CommRing α]
    [LinearOrder α] (h : List (MeshE α)) (r r2 : ℕ)
    (factors diffs normal point : List α) (uniform : MeshE α → MeshE α)
    (times : ℕ) (hr : r < h.length) :
    ((scaledOp h r factors).1.getD r default = h.getD r default ∧
      (scaledOp h r factors).2 = h.length ∧ (scaledOp h r factors).2 ≠ r) ∧
    ((translatedOp h r diffs).1.getD r default = h.getD r default ∧
      (translatedOp h r diffs).2 = h.length ∧
      (translatedOp h r diffs).2 ≠ r) ∧
    ((mirroredOp h r normal point).1.getD r default = h.getD r default ∧
      (mirroredOp h r normal point).2 = h.length ∧
      (mirroredOp h r normal point).2 ≠ r) ∧
    ((refinedOp h r uniform times).1.getD r default = h.getD r default ∧
      (refinedOp h r uniform times).2 = h.length ∧
      (refinedOp h r uniform times).2 ≠ r) ∧
    ((addOp h r r2).1.getD r default = h.getD r default ∧
      ∀ i, (addOp h r r2).2 = some i → i = h.length ∧ i ≠ r) := by
  have hne : h.length ≠ r := by omega
  refine ⟨⟨getD_append_fresh default hr, rfl, hne⟩,
    ⟨getD_append_fresh default hr, rfl, hne⟩,
    ⟨getD_append_fresh default hr, rfl, hne⟩,
    ⟨getD_append_fresh default hr, rfl, hne⟩, ?_, ?_⟩
  · unfold addOp
    cases MeshE.add (h.getD r default) (h.getD r2 default) with
    | ok m => exact getD_append_fresh default hr
    | error e => rfl
  · unfold addOp
    cases MeshE.add (h.getD r default) (h.getD r2 default) with
    | ok m =>
      intro i hi
      simp only [Option.some.injEq] at hi
      exact ⟨hi.symm, by omega⟩
    | error e =>
      intro i hi
      simp at hi

theorem length_sortDedup [DecidableEq α] (le : α → α → Bool) (l : List α) :
    (sortDedup le l).length = l.dedup.length := by
  have h1 : (sortDedup le l).Nodup := nodup_sortDedup
  have h2 : l.dedup.Nodup := l.nodup_dedup
  have hfs : (sortDedup le l).toFinset = l.dedup.toFinset := by
    ext x
    simp only [List.mem_toFinset, mem_sortDedup, List.mem_dedup]
  have c1 := List.toFinset_card_of_nodup h1
  have c2 := List.toFinset_card_of_nodup h2
  rw [← c1, ← c2, hfs]

/-- Concrete one-mesh heap used to witness the transformation claim. -/
def c7heap : List (MeshE ℤ) :=
  [mkMesh MeshCls.tet1 [[0, 0, 0], [1, 0, 0]] [[0, 1]] none none]

theorem mesh_transforms_fresh_receiver_unchanged_witness :
    (scaledOp c7heap 0 [2, 2, 2]).1.getD 0 default = c7heap.getD 0 default ∧
    (scaledOp c7heap 0 [2, 2, 2]).2 = c7heap.length ∧
    (scaledOp c7heap 0 [2, 2, 2]).2 ≠ 0 :=
  (mesh_transforms_fresh_receiver_unchanged c7heap 0 0 [2, 2, 2] [0, 0, 0]
    [1, 0, 0] [0, 0, 0] id 1 (by decide)).1

/-- Modelled from the spec: the library's default tetrahedral mesh
`MeshTet()` — the unit cube split into five tetrahedra.  Its literal
`doflocs`/`t` class attributes live in `mesh_tet_1.py`, which is not among
the embedded sources; the mirrored-mesh example in the docstring of
`Mesh.mirrored` (`src/skfem/mesh/mesh.py`) joins this mesh with its three
axis mirrors and reports `(m.nvertices, m.nelements) == (20, 20)`.  The
integer coordinates embed the `float64` values exactly. -/
def meshTet1Default : MeshE ℤ :=
  mkMesh MeshCls.tet1
    [[0, 0, 0], [0, 0, 1], [0, 1, 0], [1, 0, 0],
     [0, 1, 1], [1, 0, 1], [1, 1, 0], [1, 1, 1]]
    [[0, 1, 2, 3], [3, 5, 1, 7], [2, 3, 6, 7], [2, 3, 7, 1], [1, 2, 4, 7]]
    none none

/-- Claim C8.  Mirroring the default tetrahedral mesh across the three axis
planes (`m.mirrored((1,0,0))` etc., exactly as in the docstring example)
and joining the three mirrors with the original via `+` yields a mesh with
exactly 20 elements (= 4 times the original's 5), exactly 20 vertices
(`np.max(t) + 1`), and exactly 20 deduplicated coordinate columns, so the
join deduplicates coincident nodes down to the expected total. -/
theorem mirrored_tet_join_counts :
    ((((meshTet1Default.add
          (meshTet1Default.mirrored [1, 0, 0] [0, 0, 0])).bind
        (fun a => a.add (meshTet1Default.mirrored [0, 1, 0] [0, 0, 0]))).bind
        (fun b => b.add (meshTet1Default.mirrored [0, 0, 1] [0, 0, 0]))).map
      (fun m => (m.t.length, maxOf m.t.flatten + 1, m.doflocs.length))).toOption
      = some (20, 20, 20) ∧
    meshTet1Default.t.length = 5 ∧ (20 : ℕ) = 4 * 5 := by
  set_option maxRecDepth 4000 in decide

/-- Claim C10 (amended).  Joining with `+` raises `TypeError` whenever the
right operand is not an instance of the class of the left operand; for
operands of the same type whose coordinate arrays have the same number of
rows it never raises, and the returned mesh has as many coordinate columns
as there are distinct coordinate columns in the concatenation of the two
node arrays. -/
theorem mesh_add_typeerror_and_distinct_nodes {α : Type} [CommRing α]
    [LinearOrder α] (m1 m2 : MeshE α) :
    (m2.cls.isInstanceOf m1.cls = false →
      MeshE.add m1 m2
        = Except.error "TypeError: Can only join meshes with same type.") ∧
    (m2.cls.isInstanceOf m1.cls = true →
      (m1.doflocs.headD []).length = (m2.doflocs.headD []).length →
      ∃ m', MeshE.add m1 m2 = Except.ok m' ∧
        m'.doflocs.length = (m1.doflocs ++ m2.doflocs).dedup.length) := by
  constructor
  · intro hcls
    unfold MeshE.add
    rw [if_pos (by simp [hcls])]
  · intro hcls hdim
    unfold MeshE.add
    rw [if_neg (by simp [hcls]), if_neg (fun hc => hc hdim)]
    refine ⟨_, rfl, ?_⟩
    show (sortDedup lexLe (m1.doflocs ++ m2.doflocs)).length = _
    exact length_sortDedup _ _

/-- Claim C10, counterexample to the claim as frozen.  Two meshes of the
same class whose coordinate arrays have a different number of rows (a 1-D
and a 2-D coordinate array): `np.hstack` raises `ValueError`, so `+`
raises even though the operand types agree. -/
theorem mesh_add_claim_counterexample :
    (mkMesh MeshCls.tri1 ([[0], [1], [2]] : List (List ℤ))
        [[0, 1, 2]] none none).cls
      = (mkMesh MeshCls.tri1 ([[0, 0], [1, 0], [0, 1]] : List (List ℤ))
        [[0, 1, 2]] none none).cls ∧
    (MeshE.add
      (mkMesh MeshCls.tri1 ([[0], [1], [2]] : List (List ℤ))
        [[0, 1, 2]] none none)
      (mkMesh MeshCls.tri1 ([[0, 0], [1, 0], [0, 1]] : List (List ℤ))
        [[0, 1, 2]] none none)).isOk = false := by
  decide

/-- Concrete mesh used to witness the amended join claim. -/
def c10mesh : MeshE ℤ :=
  mkMesh MeshCls.quad1 [[0, 0], [1, 1]] [[0, 1]] none none

theorem mesh_add_typeerror_and_distinct_nodes_witness :
    ∃ m', MeshE.add c10mesh c10mesh = Except.ok m' ∧
      m'.doflocs.length = (c10mesh.doflocs ++ c10mesh.doflocs).dedup.length :=
  (mesh_add_typeerror_and_distinct_nodes c10mesh c10mesh).2
    (by decide) (by decide)

/-- Embedding of the parts of `skfem.assembly.Basis` read by
`BilinearForm._assemble` (`src/skfem/assembly/form/bilinear_form.py`):
`X.shape[1]` (the quadrature point count), `Nbfun`, `nelems`, `N`,
`element_dofs[i]` (the global DOF row of local basis function `i`, one
entry per element) and `dx` (per-element, per-quadrature-point integration
weights).  The `DiscreteField` tuples `basis[j]` are not inspected by the
assembler — it hands them to the user form — so the form's output is
abstracted as a function of the local indices below. -/
structure BasisE where
  nqp : ℕ
  Nbfun : ℕ
  nelems : ℕ
  N : ℕ
  elementDofs : ℕ → List ℕ
  dx : ℕ → ℕ → ℚ

/-- Embedding of `BilinearForm._kernel(u, v, w, dx)`:
`np.sum(self.form(*u, *v, w) * dx, axis=1)` for one element `e`, where
`F e q` is the user form's output at element `e`, quadrature point `q`. -/
def kernelSum (nqp : ℕ) (dx : ℕ → ℕ → ℚ) (F : ℕ → ℕ → ℚ) (e : ℕ) : ℚ :=
  ((List.range nqp).map (fun q => F e q * dx e q)).sum

/-- The flat `data` array of the sequential (`nthreads == 0`) branch of
`BilinearForm._assemble`: the slice at `nt * (Nbfun_v * j + i)` holds the
kernel of the local pair `(j, i)` for every element, so the layout is
`j`-major, then `i`, then the element index. -/
def seqData (ub vb : BasisE) (F : ℕ → ℕ → ℕ → ℕ → ℚ) : List ℚ :=
  (List.range ub.Nbfun).flatMap
    (fun j => (List.range vb.Nbfun).flatMap
      (fun i => (List.range ub.nelems).map
        (kernelSum ub.nqp ub.dx (F j i))))

/-- The `rows` array of `_assemble`: slice `(j, i)` holds
`vbasis.element_dofs[i]`. -/
def rowsData (ub vb : BasisE) : List ℕ :=
  (List.range ub.Nbfun).flatMap
    (fun _ => (List.range vb.Nbfun).flatMap (fun i => vb.elementDofs i))

/-- The `cols` array of `_assemble`: slice `(j, i)` holds
`ubasis.element_dofs[j]`. -/
def colsData (ub vb : BasisE) : List ℕ :=
  (List.range ub.Nbfun).flatMap
    (fun j => (List.range vb.Nbfun).flatMap (fun _ => ub.elementDofs j))

/-- Embedding of
`indices = np.array([[i, j] for (j, i) in product(range(ubasis.Nbfun),
range(vbasis.Nbfun))])`: the `(i, j)` pairs in `j`-major order. -/
def prodJI (Nu Nv : ℕ) : List (ℕ × ℕ) :=
  (List.range Nu).flatMap (fun j => (List.range Nv).map (fun i => (i, j)))

/-- Chunk sizes of `np.array_split(arr, N)`: the first `len % N` chunks
receive `len / N + 1` rows, the rest `len / N`. -/
def arraySplitSizes (len N : ℕ) : List ℕ :=
  (List.range N).map (fun k => if k < len % N then len / N + 1 else len / N)

/-- Split a list into consecutive chunks of the given sizes. -/
def splitBySizes {α : Type} : List ℕ → List α → List (List α)
  | [], _ => []
  | s :: ss, l => l.take s :: splitBySizes ss (l.drop s)

/-- Embedding of `np.array_split(indices, nthreads, axis=0)`. -/
def arraySplit {α : Type} (N : ℕ) (l : List α) : List (List α) :=
  splitBySizes (arraySplitSizes l.length N) l

/-- One iteration of `BilinearForm._threaded_kernel`:
`data[j, i] = self._kernel(ubasis[j], vbasis[i], wdict, dx)` writes the
entire element slice of the local pair.  The written value depends only on
the written location, so the buffer contents after all threads join do not
depend on the interleaving of the disjoint writes. -/
def writeSlice (K : ℕ → ℕ → ℕ → ℚ) (d : ℕ → ℕ → ℕ → ℚ) (ij : ℕ × ℕ) :
    ℕ → ℕ → ℕ → ℚ :=
  fun j i e => if j = ij.2 ∧ i = ij.1 then K ij.2 ij.1 e else d j i e

/-- The shared zero-initialized `(Nbfun_u, Nbfun_v, nt)` buffer after every
thread has executed its chunk of index pairs. -/
def runChunks (K : ℕ → ℕ → ℕ → ℚ) (chunks : List (List (ℕ × ℕ))) :
    ℕ → ℕ → ℕ → ℚ :=
  chunks.foldl (fun d chunk => chunk.foldl (writeSlice K) d)
    (fun _ _ _ => 0)

/-- The flat `data` array of the threaded (`nthreads > 0`) branch of
`BilinearForm._assemble`: the buffer filled by the workers, flattened in C
(row-major) order. -/
def threadedData (ub vb : BasisE) (F : ℕ → ℕ → ℕ → ℕ → ℚ) (N : ℕ) :
    List ℚ :=
  let final := runChunks (fun j i => kernelSum ub.nqp ub.dx (F j i))
    (arraySplit N (prodJI ub.Nbfun vb.Nbfun))
  (List.range ub.Nbfun).flatMap
    (fun j => (List.range vb.Nbfun).flatMap
      (fun i => (List.range ub.nelems).map (final j i)))

/-- The `data` array of `_assemble` for a given `nthreads` setting. -/
def dataOf (nthreads : ℕ) (ub vb : BasisE) (F : ℕ → ℕ → ℕ → ℕ → ℚ) :
    List ℚ :=
  if nthreads > 0 then threadedData ub vb F nthreads else seqData ub vb F

/-- Embedding of `BilinearForm._assemble(ubasis, vbasis)` (bilinear-form
assembly into COO data): when `vbasis` is passed explicitly it must have
the same quadrature point count as `ubasis`, otherwise `ValueError` is
raised before anything is computed; when it is omitted, `ubasis` is reused
and no check is made.  The result is `(data, rows, cols, (vbasis.N,
ubasis.N))`. -/
def assembleE (nthreads : ℕ) (ub : BasisE) (vbOpt : Option BasisE)
    (F : ℕ → ℕ → ℕ → ℕ → ℚ) :
    Except String (List ℚ × List ℕ × List ℕ × ℕ × ℕ) :=
  match vbOpt with
  | none =>
    Except.ok (dataOf nthreads ub ub F, rowsData ub ub, colsData ub ub,
      ub.N, ub.N)
  | some vb =>
    if ub.nqp ≠ vb.nqp then
      Except.error "ValueError: Quadrature mismatch: trial and test functions should have same number of integration points."
    else
      Except.ok (dataOf nthreads ub vb F, rowsData ub vb, colsData ub vb,
        vb.N, ub.N)

theorem sum_if_range {N q r : ℕ} :
    ((List.range N).map (fun k => if k < r then q + 1 else q)).sum
      = N * q + min r N := by
  induction N with
  | zero => simp
  | succ N ih =>
    rw [List.range_succ, List.map_append, List.sum_append]
    simp only [List.map_cons, List.map_nil, List.sum_cons, List.sum_nil]
    rw [ih]
    by_cases h : N < r
    · rw [if_pos h, Nat.min_eq_right (Nat.le_of_lt h),
        Nat.min_eq_right (Nat.succ_le_of_lt h)]
      simp only [Nat.succ_eq_add_one]
      ring
    · rw [if_neg h, Nat.min_eq_left (by omega), Nat.min_eq_left (by omega)]
      ring

theorem sum_arraySplitSizes {len N : ℕ} (hN : 0 < N) :
    (arraySplitSizes len N).sum = len := by
  rw [arraySplitSizes, sum_if_range,
    Nat.min_eq_left (Nat.le_of_lt (Nat.mod_lt _ hN))]
  calc N * (len / N) + len % N = len / N * N + len % N := by ring
    _ = len := Nat.div_add_mod' len N

theorem flatten_splitBySizes {α : Type} :
    ∀ (ss : List ℕ) (l : List α),
      (splitBySizes ss l).flatten = l.take ss.sum
  | [], l => by simp [splitBySizes]
  | s :: ss, l => by
    simp only [splitBySizes, List.flatten_cons, List.sum_cons]
    rw [flatten_splitBySizes ss (l.drop s), ← List.take_add]

theorem flatten_arraySplit {α : Type} {N : ℕ} (hN : 0 < N) (l : List α) :
    (arraySplit N l).flatten = l := by
  rw [arraySplit, flatten_splitBySizes, sum_arraySplitSizes hN,
    List.take_length]

theorem foldl_foldl_flatten {α β : Type} (f : β → α → β) :
    ∀ (L : List (List α)) (d : β),
      L.foldl (fun d c => c.foldl f d) d = L.flatten.foldl f d
  | [], d => rfl
  | c :: L, d => by
    simp only [List.foldl_cons, List.flatten_cons, List.foldl_append]
    exact foldl_foldl_flatten f L (c.foldl f d)

theorem foldl_writeSlice {K : ℕ → ℕ → ℕ → ℚ} :
    ∀ (L : List (ℕ × ℕ)) (d : ℕ → ℕ → ℕ → ℚ) (j i e : ℕ),
      (L.foldl (writeSlice K) d) j i e
        = if (i, j) ∈ L then K j i e else d j i e
  | [], d, j, i, e => by simp
  | a :: L, d, j, i, e => by
    rw [List.foldl_cons, foldl_writeSlice L (writeSlice K d a) j i e]
    by_cases hmem : (i, j) ∈ L
    · rw [if_pos hmem, if_pos (List.mem_cons_of_mem a hmem)]
    · rw [if_neg hmem]
      by_cases ha : (i, j) = a
      · rw [if_pos (ha ▸ List.mem_cons_self a L)]
        show (if j = a.2 ∧ i = a.1 then K a.2 a.1 e else d j i e) = K j i e
        rw [if_pos ⟨by rw [← ha], by rw [← ha]⟩, ← ha]
      · rw [if_neg (by
          intro hc
          rcases List.mem_cons.1 hc with h | h
          · exact ha h
          · exact hmem h)]
        show (if j = a.2 ∧ i = a.1 then K a.2 a.1 e else d j i e) = d j i e
        rw [if_neg (by
          rintro ⟨h1, h2⟩
          exact ha (by rw [h1, h2]))]

theorem mem_prodJI {Nu Nv i j : ℕ} (hj : j < Nu) (hi : i < Nv) :
    (i, j) ∈ prodJI Nu Nv := by
  rw [prodJI, List.mem_flatMap]
  exact ⟨j, List.mem_range.2 hj, List.mem_map.2 ⟨i, List.mem_range.2 hi, rfl⟩⟩

theorem flatMap_congr_left {α β : Type} {l : List α} {f g : α → List β}
    (h : ∀ a ∈ l, f a = g a) : l.flatMap f = l.flatMap g := by
  induction l with
  | nil => rfl
  | cons a l ih =>
    simp only [List.flatMap_cons]
    rw [h a (List.mem_cons_self a l),
      ih (fun x hx => h x (List.mem_cons_of_mem a hx))]

theorem threadedData_eq_seqData {ub vb : BasisE}
    {F : ℕ → ℕ → ℕ → ℕ → ℚ} {N : ℕ} (hN : 0 < N) :
    threadedData ub vb F N = seqData ub vb F := by
  unfold threadedData seqData
  apply flatMap_congr_left
  intro j hj
  apply flatMap_congr_left
  intro i hi
  apply List.map_congr_left
  intro e _
  show (runChunks _ (arraySplit N (prodJI ub.Nbfun vb.Nbfun))) j i e = _
  rw [runChunks, foldl_foldl_flatten, flatten_arraySplit hN,
    foldl_writeSlice]
  rw [if_pos (mem_prodJI (List.mem_range.1 hj) (List.mem_range.1 hi))]

/-- Claim C2.  For every bilinear form (abstracted as the array its kernel
produces), every trial basis with optional distinct test basis of matching
quadrature, and every positive worker count `N` dividing the number of
local basis-function pairs, the threaded assembly (`nthreads = N`) produces
exactly the same `(data, rows, cols, shape)` COO output, triplet for
triplet and in the same order, as the sequential assembly
(`nthreads = 0`). -/
theorem threaded_assembly_eq_sequential (ub : BasisE) (vbOpt : Option BasisE)
    (F : ℕ → ℕ → ℕ → ℕ → ℚ) (N : ℕ) (hN : 0 < N)
    (hdvd : N ∣ ub.Nbfun * (vbOpt.getD ub).Nbfun)
    (hq : ∀ vb, vbOpt = some vb → vb.nqp = ub.nqp) :
    assembleE N ub vbOpt F = assembleE 0 ub vbOpt F := by
  have hdata : ∀ vb', dataOf N ub vb' F = dataOf 0 ub vb' F := by
    intro vb'
    unfold dataOf
    rw [if_pos hN, if_neg (by omega)]
    exact threadedData_eq_seqData hN
  cases vbOpt with
  | none =>
    simp only [assembleE]
    rw [hdata]
  | some vb =>
    simp only [assembleE]
    by_cases hnq : ub.nqp ≠ vb.nqp
    · rw [if_pos hnq, if_pos hnq]
    · rw [if_neg hnq, if_neg hnq, hdata]

/-- Concrete basis data used to witness the threading claim. -/
def c2basis : BasisE :=
  ⟨1, 2, 1, 2, fun i => [i], fun _ _ => 1⟩

theorem threaded_assembly_eq_sequential_witness :
    assembleE 2 c2basis none (fun _ _ _ _ => 0)
      = assembleE 0 c2basis none (fun _ _ _ _ => 0) :=
  threaded_assembly_eq_sequential c2basis none (fun _ _ _ _ => 0) 2
    (by decide) (by decide) (fun vb h => by cases h)

/-- Claim C5.  When trial and test bases are both supplied and their
quadrature point counts differ, bilinear-form assembly raises `ValueError`
(returned before any contribution is computed); when the counts agree, or
when the test basis is omitted so the trial basis is reused, no error is
raised. -/
theorem quadrature_mismatch_configuration_error (n : ℕ) (ub vb : BasisE)
    (F : ℕ → ℕ → ℕ → ℕ → ℚ) :
    (ub.nqp ≠ vb.nqp →
      assembleE n ub (some vb) F
        = Except.error "ValueError: Quadrature mismatch: trial and test functions should have same number of integration points.") ∧
    (ub.nqp = vb.nqp → (assembleE n ub (some vb) F).isOk = true) ∧
    (assembleE n ub none F).isOk = true := by
  refine ⟨?_, ?_, ?_⟩
  · intro hne
    simp only [assembleE]
    rw [if_pos hne]
  · intro heq
    simp only [assembleE]
    rw [if_neg (by omega)]
    rfl
  · rfl

/-- Concrete bases used to witness the quadrature-mismatch claim. -/
def c5basis1 : BasisE :=
  ⟨1, 1, 1, 1, fun _ => [0], fun _ _ => 1⟩

/-- A basis like `c5basis1` but with two quadrature points. -/
def c5basis2 : BasisE :=
  ⟨2, 1, 1, 1, fun _ => [0], fun _ _ => 1⟩

theorem quadrature_mismatch_configuration_error_witness :
    assembleE 0 c5basis1 (some c5basis2) (fun _ _ _ _ => 0)
      = Except.error "ValueError: Quadrature mismatch: trial and test functions should have same number of integration points." :=
  (quadrature_mismatch_configuration_error 0 c5basis1 c5basis2
    (fun _ _ _ _ => 0)).1 (by decide)

/-- Modelled from the spec: the library's default triangular mesh
`MeshTri()` — the unit square split into two triangles; its literal
`doflocs`/`t` class attributes live in `mesh_tri_1.py`, which is not among
the embedded sources.  The docstring of `BilinearForm`
(`src/skfem/assembly/form/bilinear_form.py`) assembles the mass form on
this mesh and reports the expected 4 x 4 matrix.  The constructor applies
the triangle `sort_t` step. -/
def meshTri1Default : MeshE ℚ :=
  mkMesh MeshCls.tri1 [[0, 0], [1, 0], [0, 1], [1, 1]]
    [[0, 1, 2], [1, 3, 2]] none none

/-- Modelled from the spec: the first-order triangle element's basis values
(the barycentric coordinates of the reference triangle).
`ElementTriP1.lbasis` is not among the embedded sources (only P2/CR/RT0
are); the polynomials are fixed by the spec's reference-element
contract. -/
def triP1basis : ℕ → ℚ × ℚ → ℚ
  | 0, (x, y) => 1 - x - y
  | 1, (x, _) => x
  | 2, (_, y) => y
  | _, _ => 0

/-- Modelled from the spec: a quadrature rule on the reference triangle
exact for polynomials of degree two (the spec sizes the default rule by the
element's maximum degree) — the three edge midpoints with weight `1/6`. -/
def triQuad : List ((ℚ × ℚ) × ℚ) :=
  [((1/2, 0), 1/6), ((1/2, 1/2), 1/6), ((0, 1/2), 1/6)]

/-- Modelled from the spec (affine mapping strategy): the absolute Jacobian
determinant of the affine reference-to-physical map of triangle `e`,
computed from its vertex coordinates. -/
def triDetJ (m : MeshE ℚ) (e : ℕ) : ℚ :=
  let x := fun i k => (m.doflocs.getD ((m.t.getD e []).getD i 0) []).getD k 0
  |(x 1 0 - x 0 0) * (x 2 1 - x 0 1) - (x 2 0 - x 0 0) * (x 1 1 - x 0 1)|

/-- The basis data handed to the assembler for the mass-matrix example:
three local P1 basis functions, nodal DOFs (`element_dofs = t`, modelled
from the spec's global DOF numbering for first-order elements), and
`dx[e][q] = |det J_e| * w_q`. -/
def massBasis (m : MeshE ℚ) : BasisE :=
  ⟨triQuad.length, 3, m.t.length, maxOf m.t.flatten + 1,
   fun i => m.t.map (fun el => el.getD i 0),
   fun e q => triDetJ m e * (triQuad.getD q ((0, 0), 0)).2⟩

/-- The output array of the user form `u * v` at the quadrature points:
for P1 the reference basis values (unchanged by the scalar H1
push-forward), independent of the element. -/
def massKernelF : ℕ → ℕ → ℕ → ℕ → ℚ :=
  fun j i _ q => triP1basis j (triQuad.getD q ((0, 0), 0)).1
    * triP1basis i (triQuad.getD q ((0, 0), 0)).1

/-- The dense matrix obtained from COO data by summing duplicate
`(row, col)` coordinates — the COO-to-compressed-sparse conversion
contract. -/
def toDense (data : List ℚ) (rows cols : List ℕ) (nr nc : ℕ) :
    List (List ℚ) :=
  (List.range nr).map (fun r => (List.range nc).map (fun c =>
    (((List.range data.length).filter
      (fun k => rows.getD k 0 == r && cols.getD k 0 == c)).map
      (fun k => data.getD k 0)).sum))

set_option maxHeartbeats 12000000 in
/-- Claim C6.  Assembling the bilinear mass form `u * v` with the
first-order triangle element on the default unit-square mesh gives the
literal reference mass matrix: diagonal `(1/12, 1/6, 1/6, 1/12)`,
off-diagonal `1/24` for adjacent vertex pairs, `1/12` for the
diagonal-edge pair, `0` for the opposite-corner pair; and swapping the
`rows` and `cols` arrays (i.e. transposing) gives the same dense matrix,
so the assembled matrix is symmetric. -/
theorem mass_matrix_unit_square_p1 :
    ∃ data rows cols nr nc,
      assembleE 0 (massBasis meshTri1Default) none massKernelF
        = Except.ok (data, rows, cols, nr, nc) ∧
      toDense data rows cols nr nc
        = [[1/12, 1/24, 1/24, 0],
           [1/24, 1/6, 1/12, 1/24],
           [1/24, 1/12, 1/6, 1/24],
           [0, 1/24, 1/24, 1/12]] ∧
      toDense data rows cols nr nc = toDense data cols rows nr nc := by
  refine ⟨_, _, _, _, _, rfl, ?_, ?_⟩
  · norm_num [toDense, dataOf, seqData, rowsData, colsData, massBasis,
      meshTri1Default, mkMesh, MeshCls.sortT, massKernelF, kernelSum,
      triDetJ, triP1basis, triQuad, sortNat, insNat, maxOf,
      List.range_succ, abs]
  · norm_num [toDense, dataOf, seqData, rowsData, colsData, massBasis,
      meshTri1Default, mkMesh, MeshCls.sortT, massKernelF, kernelSum,
      triDetJ, triP1basis, triQuad, sortNat, insNat, maxOf,
      List.range_succ, abs]

/-- Named-set dictionaries (name to index array) built during import. -/
def TagSets : Type := List (String × List ℕ)

/-- The two locals (`subdomains`, `boundaries`) written by the optional
gmsh tag-extraction block of `from_meshio` (`src/skfem/io/meshio.py`). -/
structure TagState where
  subdomains : List (String × List ℕ)
  boundaries : List (String × List ℕ)

/-- Abstraction of the meshio input consumed by `from_meshio`.  The parts
of the function that only read external `meshio` data structures are
abstracted as input data: the named sets delivered by the `cell_sets`
phase, the gmsh tag-extraction computation (the body of the `try:` block;
it either completes with the new local state or raises partway, and Python
exception semantics leave the locals at their values at the raise point,
carried here on the error branch), and the `_decode_cell_data` hook (a
mesh-class method outside the embedded sources). -/
structure MeshioInput (α : Type) where
  points : List (List α)
  cellKeys : List String
  cells : List (String × List (List ℕ))
  hasCellSets : Bool
  cellSetsSubdomains : List (String × List ℕ)
  cellSetsBoundaries : List (String × List ℕ)
  hasCellData : Bool
  hasFieldData : Bool
  gmshExtract : TagState → Except TagState TagState
  decodeCellData : List (String × List ℕ) × List (String × List ℕ)

/-- Embedding of the meshio-type search at the top of `from_meshio`: the
first cell key that is a 3-D type, otherwise the first 2-D type, otherwise
`line`; `None` raises `NotImplementedError`. -/
def findMeshType (keys : List String) : Option String :=
  match keys.find? (fun k => (["tetra", "hexahedron", "tetra10"]).contains k) with
  | some k => some k
  | none =>
    match keys.find?
        (fun k => (["triangle", "quad", "triangle6", "quad9"]).contains k) with
    | some k => some k
    | none => keys.find? (fun k => k == "line")

/-- The `MESH_TYPE_MAPPING` of `src/skfem/io/meshio.py`, restricted to the
class tags of the embedding. -/
def meshTypeCls : String → MeshCls
  | "tetra" => MeshCls.tet1
  | "hexahedron" => MeshCls.hex1
  | "triangle" => MeshCls.tri1
  | "quad" => MeshCls.quad1
  | "line" => MeshCls.line1
  | "tetra10" => MeshCls.tet2
  | "triangle6" => MeshCls.tri2
  | _ => MeshCls.quad2

/-- The hexahedron node reordering `t = t[[0, 4, 3, 1, 7, 5, 2, 6]]`
applied inside each element column. -/
def hexPermute (t : List (List ℕ)) : List (List ℕ) :=
  t.map (fun el => ([0, 4, 3, 1, 7, 5, 2, 6] : List ℕ).map
    (fun i => el.getD i 0))

/-- The element connectivity extracted by `from_meshio`:
`cells[meshio_type].T`, with the hexahedron reordering when applicable. -/
def importConnectivity {α : Type} (inp : MeshioInput α) (mt : String) :
    List (List ℕ) :=
  let t0 := ((inp.cells.find? (fun kv => kv.1 == mt)).map Prod.snd).getD []
  if mt == "hexahedron" then hexPermute t0 else t0

/-- Key-override semantics of Python `dict.update` on the named-set
dictionaries (iteration-order details are immaterial to the claims). -/
def updateSets (base upd : List (String × List ℕ)) :
    List (String × List ℕ) :=
  base.filter (fun kv => ¬ (upd.any (fun kv2 => kv2.1 == kv.1))) ++ upd

/-- Embedding of `from_meshio` (`src/skfem/io/meshio.py`), for the default
arguments (`int_data_to_sets=False`, `out=None`): resolve the mesh type
(raising `NotImplementedError` when no supported cell block exists),
extract coordinates and connectivity, take the `cell_sets` named sets,
then — only when both `cell_data` and `field_data` are present — run the
gmsh physical-tag extraction inside `try: ... except Exception: pass`, so
that a raise anywhere in that block leaves the named sets at their values
at the raise point; then apply `_decode_cell_data` updates when
`cell_data` is present, and construct the mesh, passing `None` for a named
set that ended up empty. -/
def from_meshio {α : Type} (inp : MeshioInput α) : Except String (MeshE α) :=
  match findMeshType inp.cellKeys with
  | none => Except.error "NotImplementedError: Mesh type(s) not supported in import."
  | some mt =>
    let t := importConnectivity inp mt
    let s0 : TagState :=
      ⟨if inp.hasCellSets then inp.cellSetsSubdomains else [],
       if inp.hasCellSets then inp.cellSetsBoundaries else []⟩
    let s1 := if inp.hasCellData && inp.hasFieldData then
        match inp.gmshExtract s0 with
        | Except.ok s => s
        | Except.error sAtRaise => sAtRaise
      else s0
    let s2 : TagState := if inp.hasCellData then
        ⟨updateSets s1.subdomains inp.decodeCellData.2,
         updateSets s1.boundaries inp.decodeCellData.1⟩
      else s1
    Except.ok (mkMesh (meshTypeCls mt) inp.points t
      (if s2.boundaries.length = 0 then none else some s2.boundaries)
      (if s2.subdomains.length = 0 then none else some s2.subdomains))

/-- Claim C9.  If the gmsh physical-tag extraction raises at any point
(leaving the named-set locals in the state it had reached), the exception
is suppressed: `from_meshio` still returns a mesh built from the imported
nodes and connectivity, and the named sets are whatever had been extracted
before the failure (plus the unconditional `_decode_cell_data` updates),
downgraded to `None` when empty — the import never aborts because of tag
extraction. -/
theorem from_meshio_tag_failure_suppressed {α : Type} (inp : MeshioInput α)
    (mt : String) (sFail : TagState)
    (hmt : findMeshType inp.cellKeys = some mt)
    (hcd : inp.hasCellData = true) (hfd : inp.hasFieldData = true)
    (hfail : inp.gmshExtract
      ⟨if inp.hasCellSets then inp.cellSetsSubdomains else [],
       if inp.hasCellSets then inp.cellSetsBoundaries else []⟩
      = Except.error sFail) :
    from_meshio inp = Except.ok (mkMesh (meshTypeCls mt) inp.points
      (importConnectivity inp mt)
      (if (updateSets sFail.boundaries inp.decodeCellData.1).length = 0
        then none
        else some (updateSets sFail.boundaries inp.decodeCellData.1))
      (if (updateSets sFail.subdomains inp.decodeCellData.2).length = 0
        then none
        else some (updateSets sFail.subdomains inp.decodeCellData.2))) := by
  simp only [from_meshio, hmt, hcd, hfd, hfail, Bool.and_self, if_true]

/-- Concrete import input whose tag extraction raises immediately. -/
def c9input : MeshioInput ℤ :=
  ⟨[[0, 0], [1, 0], [0, 1]], ["triangle"], [("triangle", [[0, 1, 2]])],
   false, [], [], true, true, fun s => Except.error s, ([], [])⟩

theorem from_meshio_tag_failure_suppressed_witness :
    from_meshio c9input = Except.ok (mkMesh (meshTypeCls "triangle")
      c9input.points (importConnectivity c9input "triangle")
      (if (updateSets (TagState.mk [] []).boundaries
          c9input.decodeCellData.1).length = 0
        then none
        else some (updateSets (TagState.mk [] []).boundaries
          c9input.decodeCellData.1))
      (if (updateSets (TagState.mk [] []).subdomains
          c9input.decodeCellData.2).length = 0
        then none
        else some (updateSets (TagState.mk [] []).subdomains
          c9input.decodeCellData.2))) :=
  from_meshio_tag_failure_suppressed c9input "triangle" ⟨[], []⟩
    (by decide) rfl rfl rfl
